import Mathlib

/-
Verification of the rtfmri real-time acquisition pipeline
(src/rtfmri/queuemanagers.py and src/rtfmri/client.py).

The Python code is shallowly embedded: each worker loop body becomes a
pure step function on an explicit state record, and a run is a fold of
step functions over a list of events.  An `Option` result models an
uncaught Python exception (the thread dies) or, for `retrieve_dicom`,
the `pdb.set_trace()` call that suspends the worker; `none` therefore
means "the worker does not continue".
-/

namespace Rtfmri

open List

/- ------------------------------------------------------------------
Volumizer (queuemanagers.py, class Volumizer)
------------------------------------------------------------------ -/

/-- The DICOM fields that `Volumizer.run` reads from a file object.
`numberOfLocations` models the private tag (0x0021, 0x104f);
`imagesInAcquisition` models the `ImagesInAcquisition` attribute used
as a fallback.  `none` models a missing tag / attribute. -/
structure Dicom where
  studyID : Int
  seriesNumber : Int
  acquisitionNumber : Int
  numberOfLocations : Option Int
  imagesInAcquisition : Option Int
  instanceNumber : Int
deriving Repr, DecidableEq

/-- Model of `Volumizer.dicom_esa`: the (exam, series, acquisition) triple. -/
def dicom_esa (dcm : Dicom) : Int × Int × Int :=
  (dcm.studyID, dcm.seriesNumber, dcm.acquisitionNumber)

/-- Lines 272-283 of queuemanagers.py: read the "number of locations"
tag; on `KeyError` fall back to `getattr(dcm, "ImagesInAcquisition")`,
which raises an uncaught `AttributeError` when that attribute is also
missing (modelled by `none`). -/
def slicesPerVolume (dcm : Dicom) : Option Int :=
  match dcm.numberOfLocations with
  | some v => some v
  | none => dcm.imagesInAcquisition

/-- Model of `np.arange(slices_per_volume) + 1`: the list 1, 2, ..., spv
(empty when spv is not positive, as for numpy). -/
def arange1 (spv : Int) : List Int :=
  (List.range spv.toNat).map (fun i : Nat => (i : Int) + 1)

/-- Model of `Volumizer.missing_slices`: `set(list(need)) - set(list(have))`. -/
def missing_slices (need hav : List Int) : Finset Int :=
  need.toFinset \ hav.toFinset

/-- The Python subset test `set(a) <= set(b)`. -/
def setSubset (a b : List Int) : Bool :=
  decide (a.toFinset ⊆ b.toFinset)

/-- The mutable loop state of `Volumizer.run`.  `lastDcm` is the
Python variable `dcm`, which keeps its previous binding when
`dicom_q.get` times out with `Empty`. -/
structure VolState where
  needed : List Int
  gathered : List Int
  slices : List Dicom
  esa : Option (Int × Int × Int)
  lastDcm : Option Dicom
deriving Repr, DecidableEq

/-- The extraction loop at lines 318-322:
for each needed instance number, `index` into the gathered list (a
`ValueError` when absent is modelled by `none`), pop the slice and the
instance number at that position, and append the slice to the volume. -/
def extractLoop : List Int → List Int → List Dicom → List Dicom →
    Option (List Dicom × List Int × List Dicom)
  | [], gathered, slices, acc => some (acc, gathered, slices)
  | n :: rest, gathered, slices, acc =>
    if n ∈ gathered then
      match slices.get? (gathered.indexOf n) with
      | none => none
      | some d => extractLoop rest (gathered.eraseIdx (gathered.indexOf n))
          (slices.eraseIdx (gathered.indexOf n)) (acc ++ [d])
    else none

/-- The body of `Volumizer.run` from line 272 on, for one dicom object
`dcm` (either freshly popped from the queue or the stale binding used
by the `Empty` fall-through).  Returns the updated state and the list
of volumes put on the volume queue (a volume is the ordered list of
slices handed to `assemble_volume`); `none` models an uncaught
exception. -/
def processBody (st : VolState) (dcm : Dicom) : Option (VolState × List (List Dicom)) :=
  match slicesPerVolume dcm with
  | none => none
  | some spv =>
    let thisEsa := dicom_esa dcm
    -- lines 287-291: a new acquisition resets only the needed set
    let st1 : VolState :=
      if st.esa = some thisEsa then st
      else { st with needed := arange1 spv, esa := some thisEsa }
    let current_slice := dcm.instanceNumber
    -- lines 304-307: append to the gathered pools
    let gathered := st1.gathered ++ [current_slice]
    let slices := st1.slices ++ [dcm]
    -- line 309: set(instance_numbers_needed) <= set(instance_numbers_gathered)
    if setSubset st1.needed gathered then
      match extractLoop st1.needed gathered slices [] with
      | none => none
      | some (volume_slices, g2, s2) =>
        -- lines 325-327: min()/max() of an empty needed array raises;
        -- assemble_volume would also index slices[0]
        if st1.needed.isEmpty then none
        else
          some ({ st1 with needed := st1.needed.map (· + spv),
                           gathered := g2, slices := s2 }, [volume_slices])
    else
      some ({ st1 with gathered := gathered, slices := slices }, [])

/-- One loop iteration in which `dicom_q.get` returns a dicom. -/
def processDicom (st : VolState) (d : Dicom) : Option (VolState × List (List Dicom)) :=
  processBody { st with lastDcm := some d } d

/-- One loop iteration in which `dicom_q.get` raises `Empty`
(lines 263-270): when the needed set is nonempty and nothing is
missing, fall through to the body with the stale `dcm` binding;
otherwise sleep and continue. -/
def processTimeout (st : VolState) : Option (VolState × List (List Dicom)) :=
  if st.needed ≠ [] ∧ missing_slices st.needed st.gathered = ∅ then
    match st.lastDcm with
    | none => none
    | some d => processBody st d
  else some (st, [])

/-- An event seen by one iteration of the Volumizer loop. -/
inductive VolEvent where
  | dcm (d : Dicom)
  | timeout
deriving Repr, DecidableEq

def volStep (st : VolState) : VolEvent → Option (VolState × List (List Dicom))
  | .dcm d => processDicom st d
  | .timeout => processTimeout st

/-- Run the Volumizer loop over a list of events, collecting the
volumes put on the volume queue in order. -/
def runEvents : VolState → List VolEvent → Option (VolState × List (List Dicom))
  | st, [] => some (st, [])
  | st, e :: rest =>
    match volStep st e with
    | none => none
    | some (st', vols) =>
      match runEvents st' rest with
      | none => none
      | some (stF, volsRest) => some (stF, vols ++ volsRest)

/-- Lines 249-253: the initial loop state. -/
def initVolState : VolState :=
  { needed := [], gathered := [], slices := [], esa := none, lastDcm := none }

/-- A well-formed slice of an acquisition: identity `e`, the
number-of-locations tag present with value `spv`, instance number `i`. -/
def mkSlice (e : Int × Int × Int) (spv : Int) (i : Int) : Dicom :=
  { studyID := e.1, seriesNumber := e.2.1, acquisitionNumber := e.2.2,
    numberOfLocations := some spv, imagesInAcquisition := none,
    instanceNumber := i }

/- ------------------------------------------------------------------
Helper notions: contiguous instance-number blocks
------------------------------------------------------------------ -/

/-- The list a+1, a+2, ..., a+n of instance numbers. -/
def intRange (a : Int) (n : Nat) : List Int :=
  (List.range n).map (fun i : Nat => a + (i : Int) + 1)

/-- The expected volume contents: blocks r, r+1, ..., r+n-1, where
block j is the instance-number list j*k+1 .. j*k+k. -/
def blockVols (k : Nat) : Nat → Nat → List (List Int)
  | _, 0 => []
  | r, n + 1 => intRange (r * k) k :: blockVols k (r + 1) n

@[simp] theorem intRange_length (a : Int) (n : Nat) : (intRange a n).length = n := by
  simp [intRange]

theorem intRange_ne_nil {a : Int} {n : Nat} (h : 1 ≤ n) : intRange a n ≠ [] := by
  intro hnil
  have := intRange_length a n
  rw [hnil] at this
  simp at this
  omega

theorem mem_intRange {a x : Int} {n : Nat} :
    x ∈ intRange a n ↔ a + 1 ≤ x ∧ x ≤ a + n := by
  simp only [intRange, List.mem_map, List.mem_range]
  constructor
  · rintro ⟨i, hi, rfl⟩
    omega
  · rintro ⟨h1, h2⟩
    refine ⟨(x - a - 1).toNat, ?_, ?_⟩ <;> omega

theorem intRange_nodup (a : Int) (n : Nat) : (intRange a n).Nodup := by
  refine List.Nodup.map ?_ (List.nodup_range n)
  intro i j hij
  simp only at hij
  omega

theorem intRange_succ (a : Int) (n : Nat) :
    intRange a (n + 1) = (a + 1) :: intRange (a + 1) n := by
  simp only [intRange, List.range_succ_eq_map, List.map_cons, List.map_map]
  congr 1
  · push_cast
    ring
  · apply List.map_congr_left
    intro i _
    simp only [Function.comp_apply]
    push_cast
    ring

theorem intRange_append (a : Int) (p q : Nat) :
    intRange a (p + q) = intRange a p ++ intRange (a + p) q := by
  induction p generalizing a with
  | zero => simp [intRange]
  | succ p ih =>
    have h1 : p + 1 + q = (p + q) + 1 := by omega
    rw [h1, intRange_succ, intRange_succ, ih (a + 1)]
    have h2 : a + 1 + (p : Int) = a + ((p : Nat) + 1 : Nat) := by push_cast; ring
    rw [h2]
    simp

theorem intRange_map_add (a c : Int) (n : Nat) :
    (intRange a n).map (· + c) = intRange (a + c) n := by
  simp only [intRange, List.map_map]
  apply List.map_congr_left
  intro i _
  simp only [Function.comp_apply]
  ring

theorem blockVols_cons {k : Nat} (r n : Nat) (h : 1 ≤ n) :
    blockVols k r n = intRange (r * k) k :: blockVols k (r + 1) (n - 1) := by
  cases n with
  | zero => omega
  | succ n => simp [blockVols]

@[simp] theorem blockVols_length (k r n : Nat) : (blockVols k r n).length = n := by
  induction n generalizing r with
  | zero => simp [blockVols]
  | succ n ih => simp [blockVols, ih]

theorem blockVols_append (k : Nat) :
    ∀ (a r b : Nat), blockVols k r a ++ blockVols k (r + a) b = blockVols k r (a + b) := by
  intro a
  induction a with
  | zero => intro r b; simp [blockVols]
  | succ a ih =>
    intro r b
    simp only [blockVols, List.cons_append]
    have h : r + (a + 1) = (r + 1) + a := by omega
    rw [h, ih (r + 1) b]
    have h2 : a + 1 + b = (a + b) + 1 := by omega
    rw [h2]
    simp [blockVols]

theorem blockVols_getElem (k : Nat) :
    ∀ (n r j : Nat) (h : j < n),
      (blockVols k r n).get ⟨j, by simpa using h⟩ = intRange ((r + j) * k) k := by
  intro n
  induction n with
  | zero => intro r j h; omega
  | succ n ih =>
    intro r j h
    cases j with
    | zero => simp [blockVols]
    | succ j =>
      simp only [blockVols, List.get_eq_getElem]
      rw [List.getElem_cons_succ]
      have := ih (r + 1) j (by omega)
      rw [List.get_eq_getElem] at this
      rw [this]
      congr 2
      omega

/- ------------------------------------------------------------------
Helper lemmas about list difference and permutations
------------------------------------------------------------------ -/

theorem append_diff_self (B t : List Int) : (B ++ t).diff B = t := by
  induction B generalizing t with
  | nil => simp
  | cons b B ih =>
    rw [List.cons_append, List.diff_cons, List.erase_cons_head]
    exact ih t

/-- If a nodup list `B` is (set-wise) contained in `g`, then `g` is a
permutation of `B` together with `g.diff B`. -/
theorem perm_append_diff {B g : List Int} (hB : B.Nodup) (hsub : B ⊆ g) :
    g ~ B ++ g.diff B := by
  obtain ⟨l, hlB, hlg⟩ := hB.subperm hsub
  obtain ⟨t, hgt⟩ := hlg.exists_perm_append
  have hgBt : g ~ B ++ t := hgt.trans (hlB.append_right t)
  have hdiff : g.diff B ~ t := by
    have := hgBt.diff_right B
    rwa [append_diff_self] at this
  exact hgBt.trans ((hdiff.symm.append_left B))

/-- A nodup list longer than `g` cannot be set-wise contained in `g`. -/
theorem not_subset_of_length_lt {N g : List Int} (hnd : N.Nodup)
    (hlen : g.length < N.length) : ¬ N.toFinset ⊆ g.toFinset := by
  intro hsub
  have h1 : N.toFinset.card = N.length := List.toFinset_card_of_nodup hnd
  have h2 : N.toFinset.card ≤ g.toFinset.card := Finset.card_le_card hsub
  have h3 : g.toFinset.card ≤ g.length := List.toFinset_card_le g
  omega

theorem toFinset_subset_iff {N g : List Int} :
    N.toFinset ⊆ g.toFinset ↔ ∀ n ∈ N, n ∈ g := by
  constructor
  · intro h n hn
    have := h (List.mem_toFinset.mpr hn)
    exact List.mem_toFinset.mp this
  · intro h x hx
    exact List.mem_toFinset.mpr (h x (List.mem_toFinset.mp hx))

theorem eraseIdx_map {α β : Type} (f : α → β) :
    ∀ (l : List α) (i : Nat), (l.map f).eraseIdx i = (l.eraseIdx i).map f := by
  intro l
  induction l with
  | nil => intro i; simp
  | cons a l ih =>
    intro i
    cases i with
    | zero => simp
    | succ i => simp [List.eraseIdx_cons_succ, ih]

theorem eraseIdx_indexOf_eq_erase :
    ∀ (l : List Int) (a : Int), l.eraseIdx (List.indexOf a l) = l.erase a := by
  intro l
  induction l with
  | nil => intro a; simp
  | cons b l ih =>
    intro a
    by_cases h : b = a
    · subst h
      simp [List.indexOf_cons_self]
    · rw [List.indexOf_cons_ne _ h, List.erase_cons_tail (by simp [h])]
      simp [ih]

/-- What the extraction loop produces when the gathered slices are the
image of the gathered instance numbers under `f` and every needed
instance number has been gathered: the slices with the needed instance
numbers, in needed order, and the remaining pools. -/
theorem extractLoop_spec (f : Int → Dicom) :
    ∀ (need g : List Int) (acc : List Dicom),
      need.Nodup → (∀ n ∈ need, n ∈ g) →
      extractLoop need g (g.map f) acc =
        some (acc ++ need.map f, g.diff need, (g.diff need).map f) := by
  intro need
  induction need with
  | nil => intro g acc _ _; simp [extractLoop]
  | cons n rest ih =>
    intro g acc hnd hsub
    have hn : n ∈ g := hsub n (List.mem_cons_self n rest)
    have hidx : List.indexOf n g < g.length := List.indexOf_lt_length.mpr hn
    rw [extractLoop, if_pos hn]
    have hget : (g.map f).get? (List.indexOf n g) = some (f n) := by
      rw [List.get?_eq_getElem?, List.getElem?_map]
      rw [← List.get?_eq_getElem?, List.indexOf_get? hn]
      rfl
    rw [hget]
    rw [eraseIdx_map, eraseIdx_indexOf_eq_erase]
    have hnd' : rest.Nodup := (List.nodup_cons.mp hnd).2
    have hnotmem : n ∉ rest := (List.nodup_cons.mp hnd).1
    have hsub' : ∀ m ∈ rest, m ∈ g.erase n := by
      intro m hm
      have hne : m ≠ n := fun hc => hnotmem (hc ▸ hm)
      exact (List.mem_erase_of_ne hne).mpr (hsub m (List.mem_cons_of_mem n hm))
    have hred : (match some (f n) with
        | none => none
        | some d => extractLoop rest (g.erase n) ((g.erase n).map f) (acc ++ [d]))
        = extractLoop rest (g.erase n) ((g.erase n).map f) (acc ++ [f n]) := rfl
    rw [hred, ih (g.erase n) (acc ++ [f n]) hnd' hsub']
    rw [List.diff_cons]
    simp

/- ------------------------------------------------------------------
An instance-number-level transcript of the Volumizer loop, used to
reason about runs over well-formed slices of a single acquisition.
------------------------------------------------------------------ -/

/-- The effect of `Volumizer.run` on the needed / gathered instance
numbers when slices of the current acquisition arrive, recording the
needed set extracted for each emitted volume. -/
def specRun (spv : Int) : List Int → List Int → List Int →
    List Int × List Int × List (List Int)
  | needed, gathered, [] => (needed, gathered, [])
  | needed, gathered, m :: ms =>
    if setSubset needed (gathered ++ [m]) then
      let r := specRun spv (needed.map (· + spv)) ((gathered ++ [m]).diff needed) ms
      (r.1, r.2.1, needed :: r.2.2)
    else
      let r := specRun spv needed (gathered ++ [m]) ms
      (r.1, r.2.1, r.2.2)

/-- The stale `dcm` binding after processing the slices `xs`. -/
def lastAfter (f : Int → Dicom) (last : Option Dicom) : List Int → Option Dicom
  | [] => last
  | m :: ms => lastAfter f (some (f m)) ms

theorem lastAfter_cons (f : Int → Dicom) (last : Option Dicom) (x : Int) (xs : List Int) :
    lastAfter f last (x :: xs) = lastAfter f (some (f x)) xs := rfl

/-- After a nonempty stream, the stale binding is one of the streamed
slices. -/
theorem lastAfter_mem (f : Int → Dicom) :
    ∀ (xs : List Int) (last : Option Dicom), xs ≠ [] →
      ∃ s ∈ xs, lastAfter f last xs = some (f s) := by
  intro xs
  induction xs with
  | nil => intro last h; exact absurd rfl h
  | cons x rest ih =>
    intro last _
    cases hrest : rest with
    | nil => exact ⟨x, by simp, by simp [lastAfter]⟩
    | cons y ys =>
      obtain ⟨s, hs, heq⟩ := ih (some (f x)) (by simp [hrest])
      rw [← hrest] at *
      exact ⟨s, by simp [List.mem_cons, hs], by rw [lastAfter_cons]; exact heq⟩

theorem setSubset_iff {a b : List Int} :
    setSubset a b = true ↔ ∀ x ∈ a, x ∈ b := by
  simp only [setSubset, decide_eq_true_iff]
  exact toFinset_subset_iff

/-- One loop body on a well-formed slice of the current acquisition:
either the needed set completes and the volume with the needed
instance numbers is emitted in ascending needed order, or the slice is
just pooled. -/
theorem body_correct (e : Int × Int × Int) (spv : Int) (N g : List Int)
    (last : Option Dicom) (m : Int) (hN : N ≠ []) (hnd : N.Nodup) :
    processBody ⟨N, g, g.map (mkSlice e spv), some e, last⟩ (mkSlice e spv m) =
      (if setSubset N (g ++ [m]) then
        some (⟨N.map (· + spv), (g ++ [m]).diff N,
               ((g ++ [m]).diff N).map (mkSlice e spv), some e, last⟩,
              [N.map (mkSlice e spv)])
      else
        some (⟨N, g ++ [m], (g ++ [m]).map (mkSlice e spv), some e, last⟩, [])) := by
  obtain ⟨e1, e2, e3⟩ := e
  have hesa : dicom_esa (mkSlice (e1, e2, e3) spv m) = (e1, e2, e3) := rfl
  have hspv : slicesPerVolume (mkSlice (e1, e2, e3) spv m) = some spv := rfl
  have hinst : (mkSlice (e1, e2, e3) spv m).instanceNumber = m := rfl
  have hne : N.isEmpty = false := by
    cases N with
    | nil => exact absurd rfl hN
    | cons a l => rfl
  have hmap : g.map (mkSlice (e1, e2, e3) spv) ++ [mkSlice (e1, e2, e3) spv m]
      = (g ++ [m]).map (mkSlice (e1, e2, e3) spv) := by simp
  simp only [processBody, hspv, hesa, hinst, if_true]
  by_cases hc : setSubset N (g ++ [m]) = true
  · rw [if_pos hc, if_pos hc]
    rw [hmap, extractLoop_spec (mkSlice (e1, e2, e3) spv) N (g ++ [m]) [] hnd
      (setSubset_iff.mp hc)]
    simp [hne]
  · rw [if_neg hc, if_neg hc]
    rw [hmap]

/-- Correspondence between the Volumizer model and the
instance-number transcript, for any stream of well-formed slices of
the current acquisition. -/
theorem runDcms (e : Int × Int × Int) (spv : Int) :
    ∀ (xs : List Int) (N g : List Int) (last : Option Dicom), N ≠ [] → N.Nodup →
    runEvents ⟨N, g, g.map (mkSlice e spv), some e, last⟩
        (xs.map (fun i => VolEvent.dcm (mkSlice e spv i)))
      = some (⟨(specRun spv N g xs).1, (specRun spv N g xs).2.1,
               ((specRun spv N g xs).2.1).map (mkSlice e spv), some e,
               lastAfter (mkSlice e spv) last xs⟩,
              ((specRun spv N g xs).2.2).map (fun v => v.map (mkSlice e spv))) := by
  intro xs
  induction xs with
  | nil =>
    intro N g last hN hnd
    simp [runEvents, specRun, lastAfter]
  | cons x rest ih =>
    intro N g last hN hnd
    rw [List.map_cons, runEvents]
    have hstep : volStep ⟨N, g, g.map (mkSlice e spv), some e, last⟩
        (VolEvent.dcm (mkSlice e spv x))
        = processBody ⟨N, g, g.map (mkSlice e spv), some e, some (mkSlice e spv x)⟩
            (mkSlice e spv x) := rfl
    rw [hstep, body_correct e spv N g (some (mkSlice e spv x)) x hN hnd]
    have hN' : N.map (· + spv) ≠ [] := by
      simpa using hN
    have hnd' : (N.map (· + spv)).Nodup := by
      refine hnd.map ?_
      intro a b hab
      simpa using hab
    by_cases hc : setSubset N (g ++ [x]) = true
    · rw [if_pos hc]
      have hih := ih (N.map (· + spv)) ((g ++ [x]).diff N) (some (mkSlice e spv x)) hN' hnd'
      rw [lastAfter_cons]
      simp only [specRun, if_pos hc]
      simp only [hih]
      simp
    · rw [if_neg hc]
      have hih := ih N (g ++ [x]) (some (mkSlice e spv x)) hN hnd
      rw [lastAfter_cons]
      simp only [specRun, if_neg hc]
      simp only [hih]
      simp

/- ------------------------------------------------------------------
Analysis of the transcript
------------------------------------------------------------------ -/

theorem diff_self_nil (l : List Int) : l.diff l = [] := by
  induction l with
  | nil => rfl
  | cons a l ih =>
    rw [List.diff_cons, List.erase_cons_head]
    exact ih

/-- Delivering the needed instance numbers in any order on top of an
already-gathered remainder completes exactly one volume, extracted as
the needed list itself, and leaves the pools empty. -/
theorem specRun_one_volume (spv : Int) :
    ∀ (xs g N : List Int), N.Nodup → (g ++ xs).Perm N → xs ≠ [] →
      specRun spv N g xs = (N.map (· + spv), [], [N]) := by
  intro xs
  induction xs with
  | nil =>
    intro g N _ _ h
    exact absurd rfl h
  | cons x rest ih =>
    intro g N hnd hperm _
    cases rest with
    | nil =>
      have hperm' : (g ++ [x]).Perm N := by simpa using hperm
      have hsub : setSubset N (g ++ [x]) = true := by
        rw [setSubset_iff]
        intro n hn
        exact hperm'.symm.subset hn
      have hdiff : (g ++ [x]).diff N = [] := by
        have h1 := hperm'.diff_right N
        rw [diff_self_nil] at h1
        exact h1.eq_nil
      rw [specRun, if_pos hsub]
      simp [specRun, hdiff]
    | cons y ys =>
      have hlen : (g ++ [x]).length < N.length := by
        have h1 := hperm.length_eq
        simp only [List.length_append, List.length_cons, List.length_nil] at h1
        simp only [List.length_append, List.length_cons, List.length_nil]
        omega
      have hsub : ¬ setSubset N (g ++ [x]) = true := by
        intro hs
        exact not_subset_of_length_lt hnd hlen
          (by simpa [setSubset, decide_eq_true_iff] using hs)
      have hperm2 : ((g ++ [x]) ++ y :: ys).Perm N := by simpa using hperm
      have hstep := ih (g ++ [x]) N hnd hperm2 (by simp)
      rw [specRun, if_neg hsub]
      simp only [hstep]

/-- Processing any stream of slices of the current acquisition that,
together with the gathered pool, forms the contiguous blocks r..m-1:
the loop extracts some prefix of blocks r, r+1, ... in order, and the
pool stays a permutation of what remains. -/
theorem specRun_blocks (k m : Nat) :
    ∀ (xs : List Int) (r : Nat) (g : List Int), r ≤ m →
      (g ++ xs).Perm (intRange ((r * k : Nat) : Int) ((m - r) * k)) →
      ∃ (rF : Nat) (gF : List Int),
        specRun (k : Int) (intRange ((r * k : Nat) : Int) k) g xs
          = (intRange ((rF * k : Nat) : Int) k, gF, blockVols k r (rF - r))
        ∧ r ≤ rF ∧ rF ≤ m
        ∧ gF.Perm (intRange ((rF * k : Nat) : Int) ((m - rF) * k)) := by
  intro xs
  induction xs with
  | nil =>
    intro r g hrm hperm
    refine ⟨r, g, ?_, le_refl r, hrm, by simpa using hperm⟩
    simp [specRun, blockVols]
  | cons x rest ih =>
    intro r g hrm hperm
    by_cases hc : setSubset (intRange ((r * k : Nat) : Int) k) (g ++ [x]) = true
    · -- the current block completes at this slice
      have hrlt : r < m := by
        rcases Nat.lt_or_ge r m with h | h
        · exact h
        · exfalso
          have hz : m - r = 0 := by omega
          rw [hz, Nat.zero_mul] at hperm
          have := hperm.eq_nil
          simp [intRange] at this
      have hpeel : intRange ((r * k : Nat) : Int) ((m - r) * k)
          = intRange ((r * k : Nat) : Int) k
            ++ intRange (((r + 1) * k : Nat) : Int) ((m - (r + 1)) * k) := by
        have hsplit : (m - r) * k = k + (m - (r + 1)) * k := by
          have : m - r = 1 + (m - (r + 1)) := by omega
          rw [this]
          ring
        rw [hsplit, intRange_append]
        congr 2
        push_cast
        ring
      set B := intRange ((r * k : Nat) : Int) k with hB
      have hBnd : B.Nodup := intRange_nodup _ _
      have hsubB : B ⊆ (g ++ [x]) := fun n hn => setSubset_iff.mp hc n hn
      have hdiffperm : (g ++ [x]).Perm (B ++ (g ++ [x]).diff B) :=
        perm_append_diff hBnd hsubB
      have hassoc : ((g ++ [x]) ++ rest).Perm
          (intRange ((r * k : Nat) : Int) ((m - r) * k)) := by simpa using hperm
      have hrest : ((g ++ [x]).diff B ++ rest).Perm
          (intRange (((r + 1) * k : Nat) : Int) ((m - (r + 1)) * k)) := by
        have h1 := (hdiffperm.append_right rest).symm.trans hassoc
        rw [hpeel] at h1
        have h2 : (B ++ ((g ++ [x]).diff B ++ rest)).Perm
            (B ++ intRange (((r + 1) * k : Nat) : Int) ((m - (r + 1)) * k)) := by
          simpa [List.append_assoc] using h1
        exact (List.perm_append_left_iff B).mp h2
      have hmapB : B.map (· + (k : Int)) = intRange (((r + 1) * k : Nat) : Int) k := by
        rw [hB, intRange_map_add]
        congr 1
        push_cast
        ring
      obtain ⟨rF, gF, hspec, hle1, hle2, hpermF⟩ :=
        ih (r + 1) ((g ++ [x]).diff B) (by omega) hrest
      refine ⟨rF, gF, ?_, by omega, hle2, hpermF⟩
      have hvols : B :: blockVols k (r + 1) (rF - (r + 1)) = blockVols k r (rF - r) := by
        have h1 : ((r * k : Nat) : Int) = (r : Int) * k := by push_cast; ring
        have h2 : rF - (r + 1) = rF - r - 1 := by omega
        rw [blockVols_cons r (rF - r) (by omega), hB, h1, h2]
      simp only [specRun, if_pos hc, ← hB, hmapB, hspec, ← hvols]
    · -- the slice is pooled, nothing extracted yet
      have hassoc : ((g ++ [x]) ++ rest).Perm
          (intRange ((r * k : Nat) : Int) ((m - r) * k)) := by simpa using hperm
      obtain ⟨rF, gF, hspec, hle1, hle2, hpermF⟩ := ih r (g ++ [x]) hrm hassoc
      refine ⟨rF, gF, ?_, hle1, hle2, hpermF⟩
      simp only [specRun, if_neg hc, hspec]

/- ------------------------------------------------------------------
Timeout behaviour and run composition
------------------------------------------------------------------ -/

theorem missing_slices_empty_iff {N g : List Int} :
    missing_slices N g = ∅ ↔ ∀ n ∈ N, n ∈ g := by
  rw [missing_slices, Finset.sdiff_eq_empty_iff_subset]
  exact toFinset_subset_iff

theorem runEvents_append (l1 l2 : List VolEvent) :
    ∀ (st : VolState),
      runEvents st (l1 ++ l2) =
        (match runEvents st l1 with
         | none => none
         | some (st1, vols1) =>
           match runEvents st1 l2 with
           | none => none
           | some (st2, vols2) => some (st2, vols1 ++ vols2)) := by
  induction l1 with
  | nil =>
    intro st
    simp only [List.nil_append, runEvents]
    cases runEvents st l2 with
    | none => rfl
    | some p => cases p; simp
  | cons ev rest ih =>
    intro st
    rw [List.cons_append, runEvents, runEvents]
    cases volStep st ev with
    | none => rfl
    | some p =>
      obtain ⟨st1, vols⟩ := p
      simp only [ih st1]
      cases hq : runEvents st1 rest with
      | none => rfl
      | some q =>
        obtain ⟨st2, vols2⟩ := q
        cases hw : runEvents st2 l2 with
        | none => simp [hw]
        | some w =>
          obtain ⟨st3, vols3⟩ := w
          simp [hw]

/-- Flushing with `Empty`-timeouts after a stream whose pool holds the
blocks r..m-1 (possibly with stale re-appended slices not beyond the
delivered instance numbers): each timeout re-processes the stale
`dcm` binding, completing one block per iteration until the needed set
moves past the delivered blocks, after which timeouts are no-ops. -/
theorem runFlush (e : Int × Int × Int) (k m : Nat) (hk : 1 ≤ k) (s0 : Int)
    (hs : s0 ≤ ((m * k : Nat) : Int)) :
    ∀ (t r : Nat) (g extras : List Int), r ≤ m → m - r ≤ t →
      g.Perm (intRange ((r * k : Nat) : Int) ((m - r) * k) ++ extras) →
      (∀ y ∈ extras, y ≤ ((m * k : Nat) : Int)) →
      ∃ stF,
        runEvents ⟨intRange ((r * k : Nat) : Int) k, g, g.map (mkSlice e k),
            some e, some (mkSlice e k s0)⟩ (List.replicate t VolEvent.timeout)
          = some (stF, (blockVols k r (m - r)).map (fun v => v.map (mkSlice e k))) := by
  intro t
  induction t with
  | zero =>
    intro r g extras hrm hmr hperm hex
    have hz : m - r = 0 := by omega
    refine ⟨⟨intRange ((r * k : Nat) : Int) k, g, g.map (mkSlice e k),
      some e, some (mkSlice e k s0)⟩, ?_⟩
    rw [hz]
    simp [runEvents, blockVols]
  | succ t ih =>
    intro r g extras hrm hmr hperm hex
    by_cases hr : r < m
    · -- a completed block is pending: the timeout fires and extracts it
      have hpeel : intRange ((r * k : Nat) : Int) ((m - r) * k)
          = intRange ((r * k : Nat) : Int) k
            ++ intRange (((r + 1) * k : Nat) : Int) ((m - (r + 1)) * k) := by
        have hsplit : (m - r) * k = k + (m - (r + 1)) * k := by
          have : m - r = 1 + (m - (r + 1)) := by omega
          rw [this]
          ring
        rw [hsplit, intRange_append]
        congr 2
        push_cast
        ring
      set B := intRange ((r * k : Nat) : Int) k with hB
      have hBnd : B.Nodup := intRange_nodup _ _
      have hBne : B ≠ [] := intRange_ne_nil hk
      have hsubB : ∀ n ∈ B, n ∈ g := by
        intro n hn
        apply hperm.symm.subset
        rw [hpeel]
        exact List.mem_append_left _ (List.mem_append_left _ hn)
      have hguard : B ≠ [] ∧ missing_slices B g = ∅ :=
        ⟨hBne, missing_slices_empty_iff.mpr hsubB⟩
      have hcsub : setSubset B (g ++ [s0]) = true := by
        rw [setSubset_iff]
        intro n hn
        exact List.mem_append_left _ (hsubB n hn)
      have hstep2 : processTimeout ⟨B, g, g.map (mkSlice e k), some e, some (mkSlice e k s0)⟩
          = some (⟨B.map (· + (k : Int)), (g ++ [s0]).diff B,
                   ((g ++ [s0]).diff B).map (mkSlice e k), some e, some (mkSlice e k s0)⟩,
                  [B.map (mkSlice e k)]) := by
        rw [processTimeout, if_pos hguard]
        show processBody ⟨B, g, g.map (mkSlice e k), some e, some (mkSlice e k s0)⟩
          (mkSlice e k s0) = _
        rw [body_correct e k B g (some (mkSlice e k s0)) s0 hBne hBnd, if_pos hcsub]
      have hmapB : B.map (· + (k : Int)) = intRange (((r + 1) * k : Nat) : Int) k := by
        rw [hB, intRange_map_add]
        congr 1
        push_cast
        ring
      have hdiffperm : ((g ++ [s0]).diff B).Perm
          (intRange (((r + 1) * k : Nat) : Int) ((m - (r + 1)) * k) ++ (extras ++ [s0])) := by
        have h1 : (g ++ [s0]).Perm
            (B ++ (intRange (((r + 1) * k : Nat) : Int) ((m - (r + 1)) * k) ++ (extras ++ [s0]))) := by
          have h2 := hperm.append_right [s0]
          rw [hpeel] at h2
          refine h2.trans ?_
          simp [List.append_assoc]
        have h3 := h1.diff_right B
        rwa [append_diff_self] at h3
      have hex' : ∀ y ∈ extras ++ [s0], y ≤ ((m * k : Nat) : Int) := by
        intro y hy
        rcases List.mem_append.mp hy with h | h
        · exact hex y h
        · simp only [List.mem_singleton] at h
          exact h ▸ hs
      obtain ⟨stF, hrun⟩ := ih (r + 1) ((g ++ [s0]).diff B) (extras ++ [s0])
        (by omega) (by omega) hdiffperm hex'
      refine ⟨stF, ?_⟩
      rw [List.replicate_succ, runEvents]
      have hstep3 : volStep ⟨B, g, g.map (mkSlice e k), some e, some (mkSlice e k s0)⟩
          VolEvent.timeout = processTimeout ⟨B, g, g.map (mkSlice e k), some e,
            some (mkSlice e k s0)⟩ := rfl
      rw [hstep3, hstep2, hmapB]
      simp only [hrun]
      have hvols : blockVols k r (m - r)
          = intRange ((r * k : Nat) : Int) k :: blockVols k (r + 1) (m - (r + 1)) := by
        have h1 : ((r * k : Nat) : Int) = (r : Int) * k := by push_cast; ring
        have h2 : m - (r + 1) = m - r - 1 := by omega
        rw [blockVols_cons r (m - r) (by omega), h1, h2]
      rw [hvols]
      simp [hB]
    · -- all delivered blocks already emitted: the timeout is a no-op
      have hre : r = m := by omega
      subst hre
      have hz : r - r = 0 := by omega
      have hgex : g.Perm extras := by
        have := hperm
        rw [Nat.sub_self, Nat.zero_mul] at this
        simpa [intRange] using this
      have hnotall : ¬ (intRange ((r * k : Nat) : Int) k ≠ []
          ∧ missing_slices (intRange ((r * k : Nat) : Int) k) g = ∅) := by
        rintro ⟨-, hmiss⟩
        have hmem : ((r * k : Nat) : Int) + 1 ∈ intRange ((r * k : Nat) : Int) k := by
          rw [mem_intRange]
          constructor
          · omega
          · have : (1 : Int) ≤ (k : Int) := by exact_mod_cast hk
            omega
        have hing : ((r * k : Nat) : Int) + 1 ∈ g := missing_slices_empty_iff.mp hmiss _ hmem
        have hinex : ((r * k : Nat) : Int) + 1 ∈ extras := hgex.subset hing
        have := hex _ hinex
        omega
      have hstep2 : processTimeout ⟨intRange ((r * k : Nat) : Int) k, g,
          g.map (mkSlice e k), some e, some (mkSlice e k s0)⟩
          = some (⟨intRange ((r * k : Nat) : Int) k, g, g.map (mkSlice e k),
                   some e, some (mkSlice e k s0)⟩, []) := by
        rw [processTimeout, if_neg hnotall]
      obtain ⟨stF, hrun⟩ := ih r g extras (le_refl r) (by omega) hperm hex
      refine ⟨stF, ?_⟩
      rw [List.replicate_succ, runEvents]
      have hstep3 : volStep ⟨intRange ((r * k : Nat) : Int) k, g, g.map (mkSlice e k),
          some e, some (mkSlice e k s0)⟩ VolEvent.timeout
          = processTimeout ⟨intRange ((r * k : Nat) : Int) k, g, g.map (mkSlice e k),
              some e, some (mkSlice e k s0)⟩ := rfl
      rw [hstep3, hstep2]
      simp only [hrun]
      simp

/- ------------------------------------------------------------------
The first slice of a run: the esa reset makes the initial state behave
like a steady state whose needed set is already 1..spv.
------------------------------------------------------------------ -/

theorem processDicom_init (e : Int × Int × Int) (spv m : Int) :
    processDicom initVolState (mkSlice e spv m)
      = processDicom ⟨arange1 spv, [], [], some e, none⟩ (mkSlice e spv m) := by
  obtain ⟨e1, e2, e3⟩ := e
  have hspv : slicesPerVolume (mkSlice (e1, e2, e3) spv m) = some spv := rfl
  have hesa : dicom_esa (mkSlice (e1, e2, e3) spv m) = (e1, e2, e3) := rfl
  simp only [processDicom, processBody, hspv, hesa, initVolState]
  simp

theorem runEvents_init_cons (e : Int × Int × Int) (spv m : Int) (evs : List VolEvent) :
    runEvents initVolState (VolEvent.dcm (mkSlice e spv m) :: evs)
      = runEvents ⟨arange1 spv, [], [], some e, none⟩ (VolEvent.dcm (mkSlice e spv m) :: evs) := by
  rw [runEvents, runEvents]
  have h1 : volStep initVolState (VolEvent.dcm (mkSlice e spv m))
      = volStep ⟨arange1 spv, [], [], some e, none⟩ (VolEvent.dcm (mkSlice e spv m)) :=
    processDicom_init e spv m
  rw [h1]

theorem arange1_natCast (k : Nat) : arange1 ((k : Nat) : Int) = intRange 0 k := by
  simp only [arange1, intRange, Int.toNat_natCast]
  apply List.map_congr_left
  intro i _
  omega

theorem runEvents_init_stream (e : Int × Int × Int) (spv : Int) (x : Int) (rest : List Int) :
    runEvents initVolState ((x :: rest).map (fun i => VolEvent.dcm (mkSlice e spv i)))
      = runEvents ⟨arange1 spv, [], [], some e, none⟩
          ((x :: rest).map (fun i => VolEvent.dcm (mkSlice e spv i))) := by
  exact runEvents_init_cons e spv x _

theorem map_instanceNumber_mkSlice (e : Int × Int × Int) (spv : Int) (l : List Int) :
    (l.map (mkSlice e spv)).map Dicom.instanceNumber = l := by
  induction l with
  | nil => rfl
  | cons a l ih => simp [ih, mkSlice]

/- ------------------------------------------------------------------
Claim theorems
------------------------------------------------------------------ -/

/-- C1: for any acquisition with slices_per_volume = k whose k slices
reach the Volumizer in an arbitrary permutation of instance numbers
1..k, exactly one volume is put on the volume queue, and its slices
are in strictly increasing instance-number order: the slice at stacked
position i has instance number i+1. -/
theorem volumizer_single_volume (k : Nat) (e : Int × Int × Int) (perm : List Int)
    (hk : 1 ≤ k) (hperm : perm.Perm (intRange 0 k)) :
    ∃ stF, runEvents initVolState (perm.map (fun i => VolEvent.dcm (mkSlice e k i)))
        = some (stF, [(intRange 0 k).map (mkSlice e k)])
      ∧ ((intRange 0 k).map (mkSlice e k)).map Dicom.instanceNumber = intRange 0 k := by
  have hlen : perm.length = k := by
    have := hperm.length_eq
    simpa using this
  cases hp : perm with
  | nil =>
    exfalso
    rw [hp] at hlen
    simp at hlen
    omega
  | cons x rest =>
    subst hp
    rw [runEvents_init_stream e k x rest, arange1_natCast]
    have hN : intRange (0 : Int) k ≠ [] := intRange_ne_nil hk
    have hnd : (intRange (0 : Int) k).Nodup := intRange_nodup 0 k
    have hrd := runDcms e k (x :: rest) (intRange 0 k) [] none hN hnd
    simp only [List.map_nil] at hrd
    have hspec := specRun_one_volume (k : Int) (x :: rest) [] (intRange 0 k) hnd
      (by simpa using hperm) (by simp)
    rw [hspec] at hrd
    exact ⟨_, hrd, map_instanceNumber_mkSlice e k (intRange 0 k)⟩

/-- C3: within a single acquisition identity with slices_per_volume = k,
volumes are emitted in strictly increasing instance-number block order:
after the mk slices of m consecutive volumes arrive in an arbitrary
permutation (followed by empty-queue poll iterations, which flush any
block completed by the final arrivals), exactly m volumes are emitted,
and the j-th emitted volume holds exactly the instance numbers
j*k+1 .. j*k+k in ascending order. -/
theorem volumizer_block_order (k m : Nat) (e : Int × Int × Int) (perm : List Int)
    (hk : 1 ≤ k) (hm : 1 ≤ m) (hperm : perm.Perm (intRange 0 (m * k))) :
    ∃ stF vols,
      runEvents initVolState
          (perm.map (fun i => VolEvent.dcm (mkSlice e k i)) ++ List.replicate m VolEvent.timeout)
        = some (stF, vols)
      ∧ vols.length = m
      ∧ ∀ (j : Nat) (hj : j < vols.length),
          (vols.get ⟨j, hj⟩).map Dicom.instanceNumber = intRange ((j * k : Nat) : Int) k := by
  have hmk : 1 ≤ m * k := Nat.one_le_iff_ne_zero.mpr (by positivity)
  have hlen : perm.length = m * k := by
    have := hperm.length_eq
    simpa using this
  cases hp : perm with
  | nil =>
    exfalso
    rw [hp] at hlen
    simp at hlen
    omega
  | cons x rest =>
    subst hp
    have hN : intRange (0 : Int) k ≠ [] := intRange_ne_nil hk
    have hnd : (intRange (0 : Int) k).Nodup := intRange_nodup 0 k
    have hrd := runDcms e k (x :: rest) (intRange 0 k) [] none hN hnd
    simp only [List.map_nil] at hrd
    have h0 : ((0 * k : Nat) : Int) = 0 := by norm_num
    obtain ⟨rF, gF, hspec, hle1, hle2, hpermF⟩ := specRun_blocks k m (x :: rest) 0 []
      (by omega)
      (by
        rw [List.nil_append, h0]
        have hsz : (m - 0) * k = m * k := by rw [Nat.sub_zero]
        rw [hsz]
        exact hperm)
    rw [h0] at hspec
    have hsub0 : rF - 0 = rF := by omega
    rw [hsub0] at hspec
    rw [hspec] at hrd
    obtain ⟨s0, hs0mem, hs0eq⟩ := lastAfter_mem (mkSlice e k) (x :: rest) none (by simp)
    have hs0rng : s0 ∈ intRange 0 (m * k) := hperm.subset hs0mem
    have hs : s0 ≤ ((m * k : Nat) : Int) := by
      have := mem_intRange.mp hs0rng
      omega
    rw [hs0eq] at hrd
    obtain ⟨stT, hflush⟩ := runFlush e k m hk s0 hs m rF gF [] hle2 (by omega)
      (by simpa using hpermF) (by simp)
    have hcat : blockVols k 0 rF ++ blockVols k rF (m - rF) = blockVols k 0 m := by
      have h1 := blockVols_append k rF 0 (m - rF)
      rw [Nat.zero_add] at h1
      rw [h1]
      congr 1
      omega
    refine ⟨stT, (blockVols k 0 m).map (fun v => v.map (mkSlice e k)), ?_, ?_, ?_⟩
    · rw [runEvents_append]
      have hA : runEvents initVolState ((x :: rest).map (fun i => VolEvent.dcm (mkSlice e k i)))
          = some (⟨intRange ((rF * k : Nat) : Int) k, gF, gF.map (mkSlice e k), some e,
                   some (mkSlice e k s0)⟩,
                  (blockVols k 0 rF).map (fun v => v.map (mkSlice e k))) := by
        rw [runEvents_init_stream e k x rest, arange1_natCast]
        exact hrd
      simp only [hA]
      simp only [hflush]
      rw [← hcat]
      simp
    · simp
    · intro j hj
      have hj' : j < m := by simpa using hj
      have hget := blockVols_getElem k m 0 j hj'
      rw [List.get_eq_getElem] at hget ⊢
      rw [List.getElem_map, hget, map_instanceNumber_mkSlice]
      congr 1
      push_cast
      ring

/-- C3 witness: k = 6, m = 2, the 12 slices delivered in the order
7,8,9,1,2,3,10,11,12,4,5,6. -/
theorem volumizer_block_order_witness :
    1 ≤ 6 ∧ 1 ≤ 2
    ∧ ([7, 8, 9, 1, 2, 3, 10, 11, 12, 4, 5, 6] : List Int).Perm (intRange 0 (2 * 6))
    ∧ (∃ stF vols,
        runEvents initVolState
            (([7, 8, 9, 1, 2, 3, 10, 11, 12, 4, 5, 6] : List Int).map
                (fun i => VolEvent.dcm (mkSlice (1, 1, 1) 6 i))
              ++ List.replicate 2 VolEvent.timeout)
          = some (stF, vols)
        ∧ vols.length = 2
        ∧ ∀ (j : Nat) (hj : j < vols.length),
            (vols.get ⟨j, hj⟩).map Dicom.instanceNumber = intRange ((j * 6 : Nat) : Int) 6) :=
  ⟨by omega, by omega, by decide,
   volumizer_block_order 6 2 (1, 1, 1) [7, 8, 9, 1, 2, 3, 10, 11, 12, 4, 5, 6]
     (by omega) (by omega) (by decide)⟩

/-- A slice of acquisition (1,1,1) with instance number 1. -/
def dupSliceA : Dicom := mkSlice (1, 1, 1) 2 1

/-- A second slice with the same instance number 1, distinguishable
from the first. -/
def dupSliceB : Dicom :=
  { studyID := 1, seriesNumber := 1, acquisitionNumber := 1,
    numberOfLocations := some 2, imagesInAcquisition := some 99,
    instanceNumber := 1 }

/-- The Volumizer state reached after processing dupSliceA from the
initial state. -/
def dupPoolState : VolState :=
  { needed := [1, 2], gathered := [1], slices := [dupSliceA],
    esa := some (1, 1, 1), lastDcm := some dupSliceA }

/-- C2 (code-bug evidence): the acquisition-boundary reset at lines
285-294 of queuemanagers.py resets only the needed set; the pending
pools are not cleared.  Concretely: slice 1 of acquisition (1,1,1)
followed by slice 2 of the new acquisition (1,1,2) makes the Volumizer
emit one volume that still contains the slice of the superseded
acquisition. -/
theorem volumizer_boundary_leak :
    runEvents initVolState
        [VolEvent.dcm (mkSlice (1, 1, 1) 2 1), VolEvent.dcm (mkSlice (1, 1, 2) 2 2)]
      = some (⟨[3, 4], [], [], some (1, 1, 2), some (mkSlice (1, 1, 2) 2 2)⟩,
              [[mkSlice (1, 1, 1) 2 1, mkSlice (1, 1, 2) 2 2]])
    ∧ mkSlice (1, 1, 1) 2 1 ∈ [mkSlice (1, 1, 1) 2 1, mkSlice (1, 1, 2) 2 2]
    ∧ dicom_esa (mkSlice (1, 1, 1) 2 1) ≠ dicom_esa (mkSlice (1, 1, 2) 2 2) := by
  refine ⟨by decide, by decide, by decide⟩

/-- C4 counterexample: a duplicate instance number is appended to the
pending pools, not substituted: after dupSliceA and dupSliceB (both
instance number 1) arrive, the pool holds instance number 1 twice and
both slice objects, so the pool grew and the earlier slice was not
replaced. -/
theorem volumizer_duplicate_counterexample :
    runEvents initVolState [VolEvent.dcm dupSliceA, VolEvent.dcm dupSliceB]
      = some (⟨[1, 2], [1, 1], [dupSliceA, dupSliceB], some (1, 1, 1),
               some dupSliceB⟩, [])
    ∧ dupSliceA.instanceNumber = dupSliceB.instanceNumber
    ∧ ([1, 1] : List Int).count dupSliceB.instanceNumber = 2
    ∧ ¬ ([1, 1] : List Int).Nodup := by
  refine ⟨by decide, by decide, by decide, by decide⟩

/-- C4 amended: when a slice whose instance number is already pooled
arrives for the current acquisition (and the needed set stays
incomplete), processing succeeds (never fatal) and the duplicate is
appended alongside the earlier slice: the pool gains one more entry
with that instance number. -/
theorem volumizer_duplicate_appends (st : VolState) (d : Dicom) (spv : Int)
    (h1 : d.numberOfLocations = some spv)
    (h2 : st.esa = some (dicom_esa d))
    (h3 : d.instanceNumber ∈ st.gathered)
    (h4 : ¬ setSubset st.needed (st.gathered ++ [d.instanceNumber]) = true) :
    processDicom st d
      = some ({ st with gathered := st.gathered ++ [d.instanceNumber],
                        slices := st.slices ++ [d], lastDcm := some d }, [])
    ∧ (st.gathered ++ [d.instanceNumber]).count d.instanceNumber
        = st.gathered.count d.instanceNumber + 1 := by
  obtain ⟨N, g, s, esa, l⟩ := st
  subst h2
  constructor
  · have hspv : slicesPerVolume d = some spv := by
      simp [slicesPerVolume, h1]
    simp only [processDicom, processBody, hspv, if_true]
    rw [if_neg h4]
  · simp

/-- C4 amended witness: dupSliceB arrives while instance number 1 is
already pooled in dupPoolState. -/
theorem volumizer_duplicate_appends_witness :
    dupSliceB.numberOfLocations = some 2
    ∧ dupPoolState.esa = some (dicom_esa dupSliceB)
    ∧ dupSliceB.instanceNumber ∈ dupPoolState.gathered
    ∧ ¬ setSubset dupPoolState.needed (dupPoolState.gathered ++ [dupSliceB.instanceNumber]) = true
    ∧ (processDicom dupPoolState dupSliceB
        = some ({ dupPoolState with
                    gathered := dupPoolState.gathered ++ [dupSliceB.instanceNumber],
                    slices := dupPoolState.slices ++ [dupSliceB],
                    lastDcm := some dupSliceB }, [])
       ∧ (dupPoolState.gathered ++ [dupSliceB.instanceNumber]).count dupSliceB.instanceNumber
           = dupPoolState.gathered.count dupSliceB.instanceNumber + 1) :=
  ⟨rfl, rfl, by decide, by decide,
   volumizer_duplicate_appends dupPoolState dupSliceB 2 rfl rfl (by decide) (by decide)⟩

/-- A file carrying neither the (0x0021, 0x104f) number-of-locations
tag nor the ImagesInAcquisition attribute. -/
def noLocSlice : Dicom :=
  { studyID := 1, seriesNumber := 1, acquisitionNumber := 1,
    numberOfLocations := none, imagesInAcquisition := none,
    instanceNumber := 7 }

/-- C5 (code-bug evidence): when a file is missing both the
number-of-locations tag and the ImagesInAcquisition fallback, the
`getattr` at line 282 of queuemanagers.py raises an uncaught
AttributeError: the Volumizer run loop terminates (result none),
whatever its state and whatever events would have followed — the file
is not skipped and the loop does not continue. -/
theorem volumizer_missing_tags_abort (st : VolState) (evs : List VolEvent) :
    runEvents st (VolEvent.dcm noLocSlice :: evs) = none := by
  rw [runEvents]
  have h : volStep st (VolEvent.dcm noLocSlice) = none := rfl
  rw [h]

/- ------------------------------------------------------------------
ScannerClient (client.py): directory listing parsers
Python strings are modelled as lists of characters so that the string
operations stay kernel-computable.
------------------------------------------------------------------ -/

/-- A Python string. -/
abbrev PyStr := List Char

/-- Python `str.startswith`. -/
def pyStartsWith (p s : PyStr) : Bool := p.isPrefixOf s

/-- Python `sub in s` for strings: substring containment. -/
def pyIn (sub s : PyStr) : Bool :=
  (List.range (s.length + 1)).any (fun i => sub.isPrefixOf (s.drop i))

/-- Helper for `str.split()`: accumulate the current word (reversed). -/
def pySplitGo (acc : PyStr) : PyStr → List PyStr
  | [] => if acc.isEmpty then [] else [acc.reverse]
  | c :: cs =>
    if c = ' ' then
      if acc.isEmpty then pySplitGo [] cs else acc.reverse :: pySplitGo [] cs
    else pySplitGo (c :: acc) cs

/-- Python `str.split()`: split on whitespace runs, no empty fields.  (The ls
lines handled here use plain spaces.) -/
def pySplit (s : PyStr) : List PyStr := pySplitGo [] s

/-- Python `re.split("([0-9]+)", s)`: the possibly-empty text before each
digit run, the digit runs themselves, and the trailing text.  The
accumulator holds the current part reversed; `isdig` says whether it
is a digit run. -/
def reSplitGo (acc : PyStr) (isdig : Bool) : PyStr → List PyStr
  | [] => if isdig then [acc.reverse, []] else [acc.reverse]
  | c :: cs =>
    if c.isDigit = isdig then reSplitGo (c :: acc) isdig cs
    else acc.reverse :: reSplitGo [c] c.isDigit cs

def reSplitDigits (s : PyStr) : List PyStr := reSplitGo [] false s

/-- Python `int(part)` on a digit run. -/
def digitsToNat (s : PyStr) : Nat :=
  s.foldl (fun n c => n * 10 + (c.toNat - '0'.toNat)) 0

/-- Python `int(s)` for a nonnegative decimal field; a malformed field is a
ValueError (none). -/
def parseNatField (s : PyStr) : Option Nat :=
  if s.isEmpty then none
  else if s.all Char.isDigit then some (digitsToNat s) else none

/-- A key part produced by `alphanum_key`: an int for a digit run, the
raw text otherwise.  Python 2 orders any int before any str. -/
def keyPart (part : PyStr) : Nat ⊕ PyStr :=
  if ¬ part.isEmpty ∧ part.all Char.isDigit then Sum.inl (digitsToNat part)
  else Sum.inr part

/-- Lexicographic strict order on character lists (Python str <). -/
def charListLt : PyStr → PyStr → Bool
  | [], [] => false
  | [], _ :: _ => true
  | _ :: _, [] => false
  | a :: as, b :: bs =>
    if a < b then true else if b < a then false else charListLt as bs

/-- Python 2 comparison of mixed int/str key parts. -/
def partLt : (Nat ⊕ PyStr) → (Nat ⊕ PyStr) → Bool
  | Sum.inl a, Sum.inl b => a < b
  | Sum.inl _, Sum.inr _ => true
  | Sum.inr _, Sum.inl _ => false
  | Sum.inr a, Sum.inr b => charListLt a b

def partEq : (Nat ⊕ PyStr) → (Nat ⊕ PyStr) → Bool
  | Sum.inl a, Sum.inl b => a = b
  | Sum.inr a, Sum.inr b => a = b
  | _, _ => false

/-- Lexicographic strict order on key-part lists (Python list <). -/
def keyLt : List (Nat ⊕ PyStr) → List (Nat ⊕ PyStr) → Bool
  | [], [] => false
  | [], _ :: _ => true
  | _ :: _, [] => false
  | a :: as, b :: bs =>
    if partLt a b then true
    else if partEq a b then keyLt as bs else false

/-- A stable sort standing in for Python's stable `list.sort`. -/
def pyInsert {α : Type} (le : α → α → Bool) (a : α) : List α → List α
  | [] => [a]
  | b :: bs => if le b a then b :: pyInsert le a bs else a :: b :: bs

def pySort {α : Type} (le : α → α → Bool) : List α → List α
  | [] => []
  | a :: as => pyInsert le a (pySort le as)

/-- Model of `ScannerClient._alphanumeric_sort`: key on the last
whitespace-separated field of each ls line, with embedded digit runs
compared numerically; `entry.split()[-1]` on an all-whitespace line is
an IndexError (none). -/
def alphanum_key (entry : PyStr) : Option (List (Nat ⊕ PyStr)) :=
  match (pySplit entry).getLast? with
  | none => none
  | some fname => some ((reSplitDigits fname).map keyPart)

def _alphanumeric_sort (file_list : List PyStr) : Option (List PyStr) :=
  match file_list.mapM (fun x => (alphanum_key x).map (fun kx => (kx, x))) with
  | none => none
  | some keyed =>
    some ((pySort (fun a b => !keyLt b.1 a.1) keyed).map (fun p => p.2))

/-- One parsed (timestamp, size, name) tuple of
`ScannerClient._parse_dir_output`.  The timestamp is encoded as a
single number ordered like the parsed datetime: month, day, hour,
minute, then the listing index used as a mock microsecond field. -/
structure LsEntry where
  stamp : Nat
  size : Nat
  name : PyStr
deriving Repr, DecidableEq

def monthNum (m : PyStr) : Option Nat :=
  if m = "Jan".data then some 1
  else if m = "Feb".data then some 2
  else if m = "Mar".data then some 3
  else if m = "Apr".data then some 4
  else if m = "May".data then some 5
  else if m = "Jun".data then some 6
  else if m = "Jul".data then some 7
  else if m = "Aug".data then some 8
  else if m = "Sep".data then some 9
  else if m = "Oct".data then some 10
  else if m = "Nov".data then some 11
  else if m = "Dec".data then some 12
  else none

def encodeStamp (mo d h mi i : Nat) : Nat :=
  (((mo * 32 + d) * 24 + h) * 60 + mi) * 1000000 + i

/-- One iteration of the parsing loop of
`ScannerClient._parse_dir_output` (lines 119-141): unpack the nine ls
fields (a different field count is a ValueError, none), skip entries
whose time field has no colon (outer none = crash, inner none = entry
skipped), parse the mocked timestamp and the size. -/
def parseLsLine (i : Nat) (entry : PyStr) : Option (Option LsEntry) :=
  match pySplit entry with
  | [_, _, _, _, size, month, day, time, name] =>
    if ¬ time.contains ':' then some none
    else
      match parseNatField size, monthNum month, parseNatField day, time.splitOn ':' with
      | some sz, some mo, some d, [hs, ms] =>
        match parseNatField hs, parseNatField ms with
        | some h, some mi => some (some ⟨encodeStamp mo d h mi i, sz, name⟩)
        | _, _ => none
      | _, _, _, _ => none
  | _ => none

/-- Model of `ScannerClient._parse_dir_output` (FTP variant, lines 112-151):
alphanumeric sort of the raw ls lines, then the junk filter applied to
the whole line, then per-line parsing with the enumerate-from-1 index,
and a final sort of the (timestamp, size, name) tuples. -/
def ftp_parse_dir_output (file_list : List PyStr) : Option (List LsEntry) :=
  match _alphanumeric_sort file_list with
  | none => none
  | some sorted =>
    let kept := sorted.filter (fun x => !pyStartsWith ".".data x && !pyIn ".DS_Store".data x)
    match (List.enumFrom 1 kept).mapM (fun p => parseLsLine p.1 p.2) with
    | none => none
    | some parsed =>
      some (pySort (fun a b => decide (a.stamp ≤ b.stamp)) (parsed.filterMap id))

/-- One (st_atime, st_size, name) tuple of
`ScannerSFTPClient.list_dir`. -/
structure SftpEntry where
  atime : Int
  size : Int
  name : PyStr
deriving Repr, DecidableEq

/-- Model of `ScannerSFTPClient._parse_dir_output` (lines 318-326): drop tuples
whose name starts with '.' or contains '.DS_Store', then sort by the
first tuple component. -/
def sftp_parse_dir_output (file_list : List SftpEntry) : List SftpEntry :=
  let kept := file_list.filter
    (fun x => !pyStartsWith ".".data x.name && !pyIn ".DS_Store".data x.name)
  pySort (fun a b => decide (a.atime ≤ b.atime)) kept

/-- Model of `ScannerClient._latest_entry` (lines 153-162): parse the listing
of `dir`; `contents[-1]` on an empty contents list raises an uncaught
IndexError (none); otherwise `op.join(dir, latest_name)`. -/
def _latest_entry (dir : PyStr) (listing : List PyStr) : Option PyStr :=
  match ftp_parse_dir_output listing with
  | none => none
  | some contents =>
    match contents.getLast? with
    | none => none
    | some entry => some (dir ++ '/' :: entry.name)

/-- Model of `ScannerClient.latest_exam` (lines 164-169): the latest entry two
levels below the base directory.  `listDir` stands for the FTP `dir`
call returning raw ls lines for a path. -/
def latest_exam (listDir : PyStr → List PyStr) (base_dir : PyStr) : Option PyStr :=
  match _latest_entry base_dir (listDir base_dir) with
  | none => none
  | some latest_patient => _latest_entry latest_patient (listDir latest_patient)

/-- Model of `ScannerClient.latest_series` (lines 171-175): one level further
down. -/
def latest_series (listDir : PyStr → List PyStr) (base_dir : PyStr) : Option PyStr :=
  match latest_exam listDir base_dir with
  | none => none
  | some exam => _latest_entry exam (listDir exam)

/- ------------------------------------------------------------------
series_info and the SeriesFinder loop (client.py 197-225,
queuemanagers.py 42-104)
------------------------------------------------------------------ -/

/-- The DICOM fields read by `ScannerClient.series_info`. -/
structure SDicom where
  studyDate : PyStr
  studyTime : PyStr
  seriesNumber : Int
  seriesDescription : PyStr
  numberOfTemporalPositions : Option Int
deriving Repr, DecidableEq

/-- The dictionary built by `ScannerClient.series_info`.  The DateTime
field keeps the raw StudyDate + StudyTime concatenation whose datetime
parse is outside the claims under study. -/
structure SeriesInfoDict where
  dicomdir : PyStr
  dateTime : PyStr
  series : Int
  description : PyStr
  numTimepoints : Int
  numAcquisitions : Nat
deriving Repr, DecidableEq

/-- Model of `ScannerClient.series_info` (lines 197-225): an empty listing
yields the empty dict (none); otherwise the summary is decoded from
the first listed file, `NumTimepoints` defaulting to 1 via getattr. -/
def series_info (series_dir : PyStr) (series_files : List LsEntry)
    (retrieve : PyStr → SDicom) : Option SeriesInfoDict :=
  match series_files with
  | [] => none
  | first :: _ =>
    let first_dicom := retrieve (series_dir ++ '/' :: first.name)
    some { dicomdir := series_dir,
           dateTime := first_dicom.studyDate ++ first_dicom.studyTime,
           series := first_dicom.seriesNumber,
           description := first_dicom.seriesDescription,
           numTimepoints := first_dicom.numberOfTemporalPositions.getD 1,
           numAcquisitions := series_files.length }

/-- The check at line 75 of queuemanagers.py:
`latest_info["NumTimepoints"] > 6`.  Indexing the empty dict returned
for an empty series directory raises an uncaught KeyError (none). -/
def seriesFinderCheck (info : Option SeriesInfoDict) : Option Bool :=
  match info with
  | none => none
  | some i => some (decide (6 < i.numTimepoints))

/-- The initial collection loop of `SeriesFinder.run` (lines 64-81):
walk the series in order, enqueueing each one whose summary reports
more than 6 timepoints; a KeyError anywhere kills the thread (none). -/
def seriesFinderScan (queue : List PyStr) :
    List (PyStr × Option SeriesInfoDict) → Option (List PyStr)
  | [] => some queue
  | (path, info) :: rest =>
    match seriesFinderCheck info with
    | none => none
    | some b => seriesFinderScan (if b then queue ++ [path] else queue) rest

/- ------------------------------------------------------------------
DicomFinder (queuemanagers.py 107-185)
------------------------------------------------------------------ -/

/-- The per-series state of `DicomFinder`: the set of files already
placed on the queue, and the running count of queued files. -/
structure DFState where
  dicom_files : Finset PyStr
  nqueued : Nat
deriving DecidableEq

/-- One polling pass of `DicomFinder.run` over the current series
listing (lines 149-170): keep the files not yet seen, enqueue each of
them, and add them to the seen set.  Returns the new state and the
list of file names fetched-and-enqueued this pass. -/
def dicomFinderPass (st : DFState) (series_files : List PyStr) : DFState × List PyStr :=
  let new_files := series_files.filter (fun f => decide (f ∉ st.dicom_files))
  ({ dicom_files := st.dicom_files ∪ new_files.toFinset,
     nqueued := st.nqueued + new_files.length }, new_files)

/-- C6 (code-bug evidence): a series directory that is empty at
discovery time makes `series_info` return the empty dict, and the
`latest_info["NumTimepoints"]` lookup in `SeriesFinder.run` then
raises an uncaught KeyError: the scan dies (none) instead of treating
the series as not-yet-a-time-series and retrying later. -/
theorem series_finder_empty_dir_crash (dir : PyStr) (retrieve : PyStr → SDicom)
    (queue : List PyStr) (rest : List (PyStr × Option SeriesInfoDict)) :
    series_info dir [] retrieve = none
    ∧ seriesFinderScan queue ((dir, series_info dir [] retrieve) :: rest) = none :=
  ⟨rfl, rfl⟩

/-- A series summary that qualifies as a time-series (7 timepoints). -/
def qualInfo (n : Int) : SeriesInfoDict :=
  { dicomdir := [], dateTime := [], series := n, description := [],
    numTimepoints := 7, numAcquisitions := 1 }

/-- C7 counterexample: there is no skip policy in SeriesFinder: with
three qualifying series discovered, all three are enqueued — in
particular the first and second discovered series are enqueued, which
contradicts a skip_count of 2 keeping the first two out. -/
theorem series_finder_no_skip_counterexample :
    seriesFinderScan []
        [("s1".data, some (qualInfo 1)), ("s2".data, some (qualInfo 2)),
         ("s3".data, some (qualInfo 3))]
      = some ["s1".data, "s2".data, "s3".data]
    ∧ "s1".data ∈ ["s1".data, "s2".data, "s3".data]
    ∧ "s2".data ∈ ["s1".data, "s2".data, "s3".data] := by
  refine ⟨rfl, by simp, by simp⟩

/-- C7 amended: `SeriesFinder` implements no skip policy (it has no
skip_count or skip_set state): in the initial collection loop every
discovered series whose summary decodes and reports more than 6
timepoints is enqueued, in discovery order, including the first ones
discovered. -/
theorem series_finder_enqueues_all (queue : List PyStr)
    (entries : List (PyStr × SeriesInfoDict)) :
    seriesFinderScan queue (entries.map (fun p => (p.1, some p.2)))
      = some (queue
          ++ (entries.filter (fun p => decide (6 < p.2.numTimepoints))).map (fun p => p.1)) := by
  induction entries generalizing queue with
  | nil => simp [seriesFinderScan]
  | cons p rest ih =>
    obtain ⟨path, info⟩ := p
    simp only [List.map_cons, seriesFinderScan, seriesFinderCheck]
    by_cases hq : (6 : Int) < info.numTimepoints
    · rw [if_pos (decide_eq_true hq)]
      rw [ih (queue ++ [path])]
      simp [List.filter_cons, hq]
    · rw [if_neg (by simpa using hq)]
      rw [ih queue]
      simp [List.filter_cons, hq]

/-- C8: re-listing a series directory whose contents have not changed
is idempotent for DicomFinder: after one pass has recorded the listing
in the seen set, a second pass over the same listing computes an empty
new-files list, fetches nothing, enqueues nothing, and leaves the
state unchanged. -/
theorem dicom_finder_idempotent (st : DFState) (series_files : List PyStr) :
    dicomFinderPass (dicomFinderPass st series_files).1 series_files
      = ((dicomFinderPass st series_files).1, []) := by
  set stA := (dicomFinderPass st series_files).1 with hA
  have hsub : ∀ f ∈ series_files, f ∈ stA.dicom_files := by
    intro f hf
    rw [hA]
    simp only [dicomFinderPass, Finset.mem_union]
    by_cases hm : f ∈ st.dicom_files
    · exact Or.inl hm
    · right
      rw [List.mem_toFinset]
      exact List.mem_filter.mpr ⟨hf, by simpa using hm⟩
  have hfilter : series_files.filter (fun f => decide (f ∉ stA.dicom_files)) = [] := by
    rw [List.filter_eq_nil_iff]
    intro a ha
    simpa using hsub a ha
  have hstep : dicomFinderPass stA series_files
      = ({ dicom_files := stA.dicom_files
             ∪ (series_files.filter (fun f => decide (f ∉ stA.dicom_files))).toFinset,
           nqueued := stA.nqueued
             + (series_files.filter (fun f => decide (f ∉ stA.dicom_files))).length },
         series_files.filter (fun f => decide (f ∉ stA.dicom_files))) := rfl
  rw [hstep, hfilter]
  simp

/-- The ls line of a hidden file as produced by the FTP server. -/
def hiddenLsLine : PyStr := "-rw-r--r-- 1 u g 100 Nov 3 10:15 .hidden".data

/-- C9 counterexample: the FTP `_parse_dir_output` filter tests the
whole ls line, not the entry name, so a file named `.hidden` — whose
line starts with the permission string — survives the filter and
appears in the returned sequence even though its name begins with the
hidden-file marker. -/
theorem ftp_hidden_file_retained :
    ftp_parse_dir_output [hiddenLsLine]
      = some [⟨511815000001, 100, ".hidden".data⟩]
    ∧ pyStartsWith ".".data ".hidden".data = true := ⟨rfl, rfl⟩

theorem mem_pyInsert {α : Type} (le : α → α → Bool) (a x : α) :
    ∀ l : List α, x ∈ pyInsert le a l ↔ x = a ∨ x ∈ l := by
  intro l
  induction l with
  | nil => simp [pyInsert]
  | cons b bs ih =>
    simp only [pyInsert]
    by_cases hle : le b a = true
    · rw [if_pos hle]
      simp only [List.mem_cons, ih]
      tauto
    · rw [if_neg hle]
      simp only [List.mem_cons]

theorem mem_pySort {α : Type} (le : α → α → Bool) (x : α) :
    ∀ l : List α, x ∈ pySort le l ↔ x ∈ l := by
  intro l
  induction l with
  | nil => simp [pySort]
  | cons a as ih =>
    simp only [pySort, mem_pyInsert, ih, List.mem_cons]

theorem mapM_some_mem {α β : Type} (f : α → Option β) :
    ∀ (l : List α) (ys : List β), l.mapM f = some ys →
      ∀ y ∈ ys, ∃ x ∈ l, f x = some y := by
  intro l
  induction l with
  | nil =>
    intro ys h y hy
    simp only [List.mapM_nil, pure] at h
    cases h
    simp at hy
  | cons a l ih =>
    intro ys h y hy
    rw [List.mapM_cons] at h
    cases hfa : f a with
    | none => rw [hfa] at h; simp at h
    | some b =>
      rw [hfa] at h
      cases hml : l.mapM f with
      | none => rw [hml] at h; simp at h
      | some bs =>
        rw [hml] at h
        simp only [Option.bind_some, Option.bind_eq_bind, pure] at h
        have hys : b :: bs = ys := by
          simpa using h
        subst hys
        rcases List.mem_cons.mp hy with rfl | hmem
        · exact ⟨a, List.mem_cons_self a l, hfa⟩
        · obtain ⟨x, hx, hfx⟩ := ih bs hml y hmem
          exact ⟨x, List.mem_cons_of_mem a hx, hfx⟩

theorem snd_mem_of_mem_enumFrom {α : Type} {p : Nat × α} {n : Nat} {l : List α}
    (h : p ∈ List.enumFrom n l) : p.2 ∈ l := by
  obtain ⟨i, x⟩ := p
  obtain ⟨h1, h2, h3⟩ := List.mem_enumFrom h
  have hlt : i - n < l.length := by omega
  rw [h3]
  exact List.getElem_mem hlt

/-- C9 amended: the SFTP parser drops, before sorting, every entry
whose name begins with the hidden-file marker or contains the
.DS_Store junk name; the FTP parser applies that filter to the whole
raw ls line instead, so every returned entry derives from a line that
does not start with '.' and does not contain '.DS_Store' — which does
not exclude an entry whose hidden name begins with '.' (see the
counterexample). -/
theorem parse_dir_filter_behavior :
    (∀ (fl : List SftpEntry) (entry : SftpEntry), entry ∈ sftp_parse_dir_output fl →
       pyStartsWith ".".data entry.name = false ∧ pyIn ".DS_Store".data entry.name = false)
    ∧ (∀ (fl : List PyStr) (out : List LsEntry) (entry : LsEntry),
        ftp_parse_dir_output fl = some out → entry ∈ out →
        ∃ line ∈ fl, pyStartsWith ".".data line = false
          ∧ pyIn ".DS_Store".data line = false
          ∧ ∃ i, parseLsLine i line = some (some entry)) := by
  constructor
  · intro fl entry hmem
    rw [sftp_parse_dir_output, mem_pySort] at hmem
    obtain ⟨-, hcond⟩ := List.mem_filter.mp hmem
    rw [Bool.and_eq_true, Bool.not_eq_true', Bool.not_eq_true'] at hcond
    exact hcond
  · intro fl out entry hparse hmem
    rw [ftp_parse_dir_output] at hparse
    cases hsort : _alphanumeric_sort fl with
    | none => rw [hsort] at hparse; cases hparse
    | some sorted =>
      rw [hsort] at hparse
      simp only at hparse
      cases hmap : (List.enumFrom 1 (sorted.filter
          (fun x => !pyStartsWith ".".data x && !pyIn ".DS_Store".data x))).mapM
          (fun p => parseLsLine p.1 p.2) with
      | none => rw [hmap] at hparse; cases hparse
      | some parsed =>
        rw [hmap] at hparse
        have hout : out = pySort (fun a b => decide (a.stamp ≤ b.stamp)) (parsed.filterMap id) := by
          cases hparse
          rfl
        rw [hout, mem_pySort, List.mem_filterMap] at hmem
        obtain ⟨oe, hoe, hid⟩ := hmem
        have hoe' : some entry ∈ parsed := by
          cases oe with
          | none => cases hid
          | some v => cases hid; exact hoe
        obtain ⟨pr, hpr, hline⟩ := mapM_some_mem _ _ parsed hmap (some entry) hoe'
        have hkept := snd_mem_of_mem_enumFrom hpr
        obtain ⟨hsortedmem, hcond⟩ := List.mem_filter.mp hkept
        rw [Bool.and_eq_true, Bool.not_eq_true', Bool.not_eq_true'] at hcond
        -- trace the sorted line back to the raw input list
        rw [_alphanumeric_sort] at hsort
        cases hkeyed : fl.mapM (fun x => (alphanum_key x).map (fun kx => (kx, x))) with
        | none => rw [hkeyed] at hsort; cases hsort
        | some keyed =>
          rw [hkeyed] at hsort
          have hsorted : sorted
              = (pySort (fun a b => !keyLt b.1 a.1) keyed).map (fun p => p.2) := by
            cases hsort
            rfl
          have hmemmap : pr.2 ∈ (pySort (fun a b => !keyLt b.1 a.1) keyed).map (fun p => p.2) := by
            rw [← hsorted]
            exact hsortedmem
          obtain ⟨pr2, hpr2, hpr2eq⟩ := List.mem_map.mp hmemmap
          rw [mem_pySort] at hpr2
          obtain ⟨x, hxfl, hxeq⟩ := mapM_some_mem _ _ keyed hkeyed pr2 hpr2
          obtain ⟨kx, -, hkxeq⟩ := Option.map_eq_some'.mp hxeq
          have hlinefl : pr.2 ∈ fl := by
            have : pr2.2 = x := by rw [← hkxeq]
            rw [← hpr2eq, this]
            exact hxfl
          exact ⟨pr.2, hlinefl, hcond.1, hcond.2, pr.1, hline⟩

/-- C9 amended witness: a plain entry passes the SFTP filter. -/
theorem parse_dir_filter_witness :
    ((⟨0, 0, "a".data⟩ : SftpEntry) ∈ sftp_parse_dir_output [⟨0, 0, "a".data⟩])
    ∧ (pyStartsWith ".".data (⟨0, 0, "a".data⟩ : SftpEntry).name = false
       ∧ pyIn ".DS_Store".data (⟨0, 0, "a".data⟩ : SftpEntry).name = false) :=
  ⟨by decide,
   parse_dir_filter_behavior.1 [⟨0, 0, "a".data⟩] ⟨0, 0, "a".data⟩ (by decide)⟩

/-- C10: for every directory whose parsed-and-filtered listing is
empty, `_latest_entry` does not return a path but hits the
`contents[-1]` IndexError, and `latest_exam` / `latest_series` built
on it fail the same way when the base directory's listing parses
empty: these operations presuppose a non-hidden, current-period entry
at every level. -/
theorem latest_entry_empty_raises (dir : PyStr) (listing : List PyStr)
    (h : ftp_parse_dir_output listing = some []) :
    _latest_entry dir listing = none
    ∧ ∀ (listDir : PyStr → List PyStr) (base : PyStr), listDir base = listing →
        latest_exam listDir base = none ∧ latest_series listDir base = none := by
  have hgen : ∀ d : PyStr, _latest_entry d listing = none := by
    intro d
    simp [_latest_entry, h]
  refine ⟨hgen dir, ?_⟩
  intro listDir base hbase
  have h2 : _latest_entry base (listDir base) = none := by
    rw [hbase]
    exact hgen base
  have h3 : latest_exam listDir base = none := by
    simp [latest_exam, h2]
  exact ⟨h3, by simp [latest_series, h3]⟩

/-- C10 witness: an empty listing at the first level. -/
theorem latest_entry_empty_raises_witness :
    ftp_parse_dir_output ([] : List PyStr) = some []
    ∧ (_latest_entry "d".data [] = none
       ∧ ∀ (listDir : PyStr → List PyStr) (base : PyStr), listDir base = [] →
           latest_exam listDir base = none ∧ latest_series listDir base = none) :=
  ⟨rfl, latest_entry_empty_raises "d".data [] rfl⟩

/-- C1 witness: k = 6, slices delivered in the order 3,1,5,2,6,4. -/
theorem volumizer_single_volume_witness :
    1 ≤ 6 ∧ ([3, 1, 5, 2, 6, 4] : List Int).Perm (intRange 0 6) ∧
    (∃ stF, runEvents initVolState
        (([3, 1, 5, 2, 6, 4] : List Int).map (fun i => VolEvent.dcm (mkSlice (1, 1, 1) 6 i)))
        = some (stF, [(intRange 0 6).map (mkSlice (1, 1, 1) 6)])
      ∧ ((intRange 0 6).map (mkSlice (1, 1, 1) 6)).map Dicom.instanceNumber = intRange 0 6) :=
  ⟨by omega, by decide,
   volumizer_single_volume 6 (1, 1, 1) [3, 1, 5, 2, 6, 4] (by omega) (by decide)⟩

end Rtfmri
